import Mathlib

/-!
Shallow embedding of the Text Projection & Span Rewriting Engine of
`src/backend/anonymizer.py` (class `RegexAnonymizer` and dataclasses
`Entity`, `RunInfo`), together with the Coordinate Resolution part of
`anonymize_pdf`.  Text is modelled as `List Char`; Python string slicing
`s[a:b]` on the non-negative indices that occur here is `(s.drop a).take
(b - a)`; bounds-checked Python list indexing is `l[i]?`.
-/

namespace Anonymizer

/-- One formatting unit ("run") of the structured document: its text and
whether its XML carries an explicit page-break element
(`run._element.xpath(".//w:br[@w:type='page']")` in the source). -/
structure Run where
  text : List Char
  pageBreak : Bool
deriving DecidableEq, Repr

/-- A paragraph: an ordered list of runs, and whether the paragraph is
marked as ending a section (`para._p.xpath("w:pPr/w:sectPr")`). -/
structure Para where
  runs : List Run
  sectPr : Bool
deriving DecidableEq, Repr

/-- A table cell: its paragraphs. -/
structure Cell where
  paras : List Para
deriving DecidableEq, Repr

/-- A table row: its cells. -/
structure Row where
  cells : List Cell
deriving DecidableEq, Repr

/-- A table: its rows. -/
structure Table where
  rows : List Row
deriving DecidableEq, Repr

/-- A document section with its header and footer paragraph lists. -/
structure Sec where
  headerParas : List Para
  footerParas : List Para
deriving DecidableEq, Repr

/-- The structured DOCX document handle: body paragraphs, tables,
sections, and the core properties touched by `anonymize_docx`. -/
structure Document where
  paragraphs : List Para
  tables : List Table
  sections : List Sec
  author : List Char
  title : List Char
  subject : List Char
deriving DecidableEq, Repr

/-- The `path` tuple stored in a `RunInfo`: a tagged locator
(`("body", p, r)`, `("table", t, row, cell, p, r)`,
`("header", s, p, r)`, `("footer", s, p, r)`). -/
inductive Path where
  | body (p r : Nat)
  | table (t row cell p r : Nat)
  | header (s p r : Nat)
  | footer (s p r : Nat)
deriving DecidableEq, Repr

/-- Projection entry, dataclass `RunInfo(start, end, page, section, path)`.
The Python field `end` is called `stop` here because `end` is a Lean
keyword. -/
structure RunInfo where
  start : Nat
  stop : Nat
  page : Nat
  sect : Nat
  path : Path
deriving DecidableEq, Repr

/-- `RunInfo.get_run`: resolve the locator path against the live document
with bounds checks, returning the referenced run or `none`. -/
def get_run (doc : Document) : Path → Option Run
  | Path.body p r =>
      (doc.paragraphs[p]?).bind fun pa => pa.runs[r]?
  | Path.table t rw c p r =>
      (doc.tables[t]?).bind fun tb =>
      (tb.rows[rw]?).bind fun row =>
      (row.cells[c]?).bind fun cl =>
      (cl.paras[p]?).bind fun pa =>
      pa.runs[r]?
  | Path.header s p r =>
      (doc.sections[s]?).bind fun sc =>
      (sc.headerParas[p]?).bind fun pa => pa.runs[r]?
  | Path.footer s p r =>
      (doc.sections[s]?).bind fun sc =>
      (sc.footerParas[p]?).bind fun pa => pa.runs[r]?

/-- In-place mutation `run.text = t` of the run referenced by a path:
structurally rebuild the document with that one run's text replaced.
When the path does not resolve, nothing is mutated. -/
def setRunText (doc : Document) (p : Path) (t : List Char) : Document :=
  match p with
  | Path.body pi ri =>
    match doc.paragraphs[pi]? with
    | none => doc
    | some pa =>
      match pa.runs[ri]? with
      | none => doc
      | some r =>
        let pa2 := { pa with runs := pa.runs.set ri { r with text := t } }
        { doc with paragraphs := doc.paragraphs.set pi pa2 }
  | Path.table ti ri ci pi rri =>
    match doc.tables[ti]? with
    | none => doc
    | some tb =>
      match tb.rows[ri]? with
      | none => doc
      | some rw =>
        match rw.cells[ci]? with
        | none => doc
        | some cl =>
          match cl.paras[pi]? with
          | none => doc
          | some pa =>
            match pa.runs[rri]? with
            | none => doc
            | some r =>
              let pa2 := { pa with runs := pa.runs.set rri { r with text := t } }
              let cl2 := { cl with paras := cl.paras.set pi pa2 }
              let rw2 := { rw with cells := rw.cells.set ci cl2 }
              let tb2 := { tb with rows := tb.rows.set ri rw2 }
              { doc with tables := doc.tables.set ti tb2 }
  | Path.header si pi ri =>
    match doc.sections[si]? with
    | none => doc
    | some sc =>
      match sc.headerParas[pi]? with
      | none => doc
      | some pa =>
        match pa.runs[ri]? with
        | none => doc
        | some r =>
          let pa2 := { pa with runs := pa.runs.set ri { r with text := t } }
          let sc2 := { sc with headerParas := sc.headerParas.set pi pa2 }
          { doc with sections := doc.sections.set si sc2 }
  | Path.footer si pi ri =>
    match doc.sections[si]? with
    | none => doc
    | some sc =>
      match sc.footerParas[pi]? with
      | none => doc
      | some pa =>
        match pa.runs[ri]? with
        | none => doc
        | some r =>
          let pa2 := { pa with runs := pa.runs.set ri { r with text := t } }
          let sc2 := { sc with footerParas := sc.footerParas.set pi pa2 }
          { doc with sections := doc.sections.set si sc2 }

/-!
## Text projector (`RegexAnonymizer.docx_text_mapping`)

The Python function walks the document with two mutating closures
(`add_run`, `add_sep`) and two threaded counters (`page`, `section`).
We linearise the walk into its exact sequence of primitive events
(`Piece`s) and execute them by a left fold whose single step reproduces
the bodies of `add_run` / `add_sep` / the `w:sectPr` check.
-/

/-- One primitive event of the traversal: an `add_run` call (with the
locator path, the run's text, its page-break flag, and — for header and
footer runs — the fixed section id `sec_idx` passed instead of the
running counter), an `add_sep` call, or a section-counter increment. -/
inductive Piece where
  | run (p : Path) (t : List Char) (pb : Bool) (sv : Option Nat)
  | sep (t : List Char)
  | sectInc
deriving DecidableEq, Repr

/-- Mutable traversal state: accumulated parts (already joined), the
mapping, the running position `pos`, and the page / section counters. -/
structure MState where
  acc : List Char
  mapping : List RunInfo
  pos : Nat
  page : Nat
  sect : Nat
deriving DecidableEq, Repr

/-- Execute one traversal event, exactly as `add_run` / `add_sep` /
the section-break check do in the source. -/
def stepPiece (st : MState) : Piece → MState
  | Piece.run p t pb sv =>
      { acc := st.acc ++ t,
        mapping := st.mapping ++ [⟨st.pos, st.pos + t.length, st.page, sv.getD st.sect, p⟩],
        pos := st.pos + t.length,
        page := if pb then st.page + 1 else st.page,
        sect := st.sect }
  | Piece.sep t =>
      { st with acc := st.acc ++ t, pos := st.pos + t.length }
  | Piece.sectInc =>
      { st with sect := st.sect + 1 }

/-- The `add_run` calls of one paragraph's run loop, with run indices
counted from `i`. -/
def runPieces (mk : Nat → Path) (sv : Option Nat) : List Run → Nat → List Piece
  | [], _ => []
  | r :: rest, i => Piece.run (mk i) r.text r.pageBreak sv :: runPieces mk sv rest (i + 1)

/-- One paragraph loop: each paragraph's runs, a `"\n"` separator after
every paragraph but the last (`if p_idx < len(...) - 1`), and — for the
body loop only (`useSect`) — a section increment after a paragraph whose
`w:pPr` carries `w:sectPr`. -/
def paraPieces (mk2 : Nat → Nat → Path) (sv : Option Nat) (useSect : Bool)
    (total : Nat) : List Para → Nat → List Piece
  | [], _ => []
  | pa :: rest, i =>
      runPieces (mk2 i) sv pa.runs 0
        ++ (if i < total - 1 then [Piece.sep ['\n']] else [])
        ++ (if useSect && pa.sectPr then [Piece.sectInc] else [])
        ++ paraPieces mk2 sv useSect total rest (i + 1)

/-- One row's cell loop: each cell's paragraphs, `"\t"` between cells. -/
def cellPieces (mkc : Nat → Nat → Nat → Path) (total : Nat) : List Cell → Nat → List Piece
  | [], _ => []
  | c :: rest, i =>
      paraPieces (mkc i) none false c.paras.length c.paras 0
        ++ (if i < total - 1 then [Piece.sep ['\t']] else [])
        ++ cellPieces mkc total rest (i + 1)

/-- One table's row loop: each row's cells, `"\n"` between rows. -/
def rowPieces (mkr : Nat → Nat → Nat → Nat → Path) (total : Nat) : List Row → Nat → List Piece
  | [], _ => []
  | rw :: rest, i =>
      cellPieces (mkr i) rw.cells.length rw.cells 0
        ++ (if i < total - 1 then [Piece.sep ['\n']] else [])
        ++ rowPieces mkr total rest (i + 1)

/-- The table loop: each table's rows, `"\n"` between tables. -/
def tablesPieces (total : Nat) : List Table → Nat → List Piece
  | [], _ => []
  | tb :: rest, i =>
      rowPieces (fun rw c p r => Path.table i rw c p r) tb.rows.length tb.rows 0
        ++ (if i < total - 1 then [Piece.sep ['\n']] else [])
        ++ tablesPieces total rest (i + 1)

/-- The header loop over all sections: each section's header paragraphs
(section id fixed to `sec_idx`), and a trailing `"\n"` after every
section whose header has at least one paragraph. -/
def headersPieces : List Sec → Nat → List Piece
  | [], _ => []
  | sc :: rest, i =>
      paraPieces (fun p r => Path.header i p r) (some i) false
          sc.headerParas.length sc.headerParas 0
        ++ (if sc.headerParas.isEmpty then [] else [Piece.sep ['\n']])
        ++ headersPieces rest (i + 1)

/-- The footer loop over all sections, run after the header loop. -/
def footersPieces : List Sec → Nat → List Piece
  | [], _ => []
  | sc :: rest, i =>
      paraPieces (fun p r => Path.footer i p r) (some i) false
          sc.footerParas.length sc.footerParas 0
        ++ (if sc.footerParas.isEmpty then [] else [Piece.sep ['\n']])
        ++ footersPieces rest (i + 1)

/-- The full traversal of `docx_text_mapping`, in source order: body
paragraphs, a `"\n"` after the body when it has any paragraph
(`if doc.paragraphs: add_sep("\n")`), then tables, then all headers,
then all footers. -/
def docPieces (doc : Document) : List Piece :=
  paraPieces (fun p r => Path.body p r) none true doc.paragraphs.length doc.paragraphs 0
    ++ (if doc.paragraphs.isEmpty then [] else [Piece.sep ['\n']])
    ++ tablesPieces doc.tables.length doc.tables 0
    ++ headersPieces doc.sections 0
    ++ footersPieces doc.sections 0

/-- `RegexAnonymizer.docx_text_mapping`: the flat text and the
projection table. -/
def docx_text_mapping (doc : Document) : List Char × List RunInfo :=
  let st := (docPieces doc).foldl stepPiece ⟨[], [], 0, 0, 0⟩
  (st.acc, st.mapping)

/-!
## Span rewriter (`RegexAnonymizer._replace_using_mapping`)
-/

/-- Detected entity, dataclass `Entity`.  The Python field `end` is
called `stop` here.  Position fields are `None` until the coordinate
resolver fills them; PDF coordinates are modelled as integers. -/
structure Entity where
  type : List Char
  value : List Char
  start : Nat
  stop : Nat
  page : Option Nat
  x : Option Int
  y : Option Int
  width : Option Int
  height : Option Int
deriving DecidableEq, Repr

/-- Local start of the overlap of `ent` inside entry `m`:
`rs = max(ent.start, m.start) - m.start`. -/
def locS (ent : Entity) (m : RunInfo) : Nat :=
  max ent.start m.start - m.start

/-- Local end of the overlap of `ent` inside entry `m`:
`re = min(ent.end, m.end) - m.start`. -/
def locE (ent : Entity) (m : RunInfo) : Nat :=
  min ent.stop m.stop - m.start

/-- The `continue` guard of both loops:
`m.end <= ent.start or m.start >= ent.end`. -/
def noOverlap (ent : Entity) (m : RunInfo) : Prop :=
  m.stop ≤ ent.start ∨ ent.stop ≤ m.start

instance (ent : Entity) (m : RunInfo) : Decidable (noOverlap ent m) := by
  unfold noOverlap; infer_instance

/-- Boolean overlap test, used to talk about the sub-list of entries the
loops actually process. -/
def ovB (ent : Entity) (m : RunInfo) : Bool :=
  decide (¬ noOverlap ent m)

/-- The inner helper `_original_text`: concatenate, over the entries
overlapping `ent` whose path still resolves, the overlapped slice
`run.text[rs:re]` (with the source's bounds guard). -/
def origParts (doc : Document) (ent : Entity) : List RunInfo → List Char
  | [] => []
  | m :: rest =>
      if noOverlap ent m then origParts doc ent rest
      else
        match get_run doc m.path with
        | none => origParts doc ent rest
        | some run =>
            (if locS ent m < run.text.length ∧ locE ent m ≤ run.text.length
             then (run.text.drop (locS ent m)).take (locE ent m - locS ent m)
             else [])
            ++ origParts doc ent rest

/-- `_original_text(ent)` over the given mapping. -/
def _original_text (doc : Document) (mapping : List RunInfo) (ent : Entity) : List Char :=
  origParts doc ent mapping

/-- The placeholder `f"[{ent.type}]"`. -/
def placeholder (ent : Entity) : List Char :=
  '[' :: ent.type ++ [']']

/-- The per-entity mapping loop: splice the effective replacement into
the first overlapping resolvable run (`run_text[:rs] + replacement +
run_text[re:]`), and delete the overlapped sub-range from every later
one (`run_text[:rs] + run_text[re:]`). -/
def applyEnt (ent : Entity) (repl : List Char) : Document → List RunInfo → Bool → Document
  | doc, [], _ => doc
  | doc, m :: rest, first =>
      if noOverlap ent m then applyEnt ent repl doc rest first
      else
        match get_run doc m.path with
        | none => applyEnt ent repl doc rest first
        | some run =>
            if first then
              applyEnt ent repl
                (setRunText doc m.path
                  (run.text.take (locS ent m) ++ repl ++ run.text.drop (locE ent m)))
                rest false
            else
              applyEnt ent repl
                (setRunText doc m.path
                  (run.text.take (locS ent m) ++ run.text.drop (locE ent m)))
                rest false

/-- Process one entity: reconstruct the original text, fall back to the
placeholder when the supplied value equals it, then run the mapping
loop. -/
def replaceEntity (doc : Document) (mapping : List RunInfo) (ent : Entity) : Document :=
  let original := _original_text doc mapping ent
  let repl := if ent.value = original then placeholder ent else ent.value
  applyEnt ent repl doc mapping true

/-- `RegexAnonymizer._replace_using_mapping`: process the entities in
list order against the fixed mapping snapshot. -/
def _replace_using_mapping (doc : Document) (entities : List Entity)
    (mapping : List RunInfo) : Document :=
  entities.foldl (fun d e => replaceEntity d mapping e) doc

/-- `RegexAnonymizer.anonymize_docx`, with the entity detector
abstracted as a function of the flat text (the source calls
`self.detect(text)`, an external pattern matcher): save the core
properties, project, detect, rewrite, then restore each saved property
when it is truthy (`if core_props.get("author"): ...`). -/
def anonymize_docx (detectF : List Char → List Entity) (doc : Document) :
    Document × List Entity × List RunInfo × List Char :=
  let savedAuthor := doc.author
  let savedTitle := doc.title
  let savedSubject := doc.subject
  let tm := docx_text_mapping doc
  let entities := detectF tm.1
  let doc2 := _replace_using_mapping doc entities tm.2
  let doc3 := if savedAuthor ≠ [] then { doc2 with author := savedAuthor } else doc2
  let doc4 := if savedTitle ≠ [] then { doc3 with title := savedTitle } else doc3
  let doc5 := if savedSubject ≠ [] then { doc4 with subject := savedSubject } else doc4
  (doc5, entities, tm.2, tm.1)

/-!
## Coordinate resolver (the `pdfplumber` part of
`RegexAnonymizer.anonymize_pdf`)
-/

/-- One `pdfplumber` character record as read from `page.chars`:
`ch.get("text","")` plus its rectangle. -/
structure PdfChar where
  text : List Char
  x0 : Int
  x1 : Int
  top : Int
  bottom : Int
deriving DecidableEq, Repr

/-- One `char_map` entry: flat index, 1-based page number, rectangle. -/
structure Glyph where
  index : Nat
  page : Nat
  x0 : Int
  x1 : Int
  top : Int
  bottom : Int
deriving DecidableEq, Repr

/-- The inner character loop of one page: skip empty `text`, append the
text to `pdf_text_parts`, record one `char_map` entry at the current
position, advance by the text's length. -/
def buildPage (pageNum : Nat) : List PdfChar → Nat → List Char × List Glyph × Nat
  | [], pos => ([], [], pos)
  | ch :: rest, pos =>
      if ch.text.isEmpty then buildPage pageNum rest pos
      else
        let r := buildPage pageNum rest (pos + ch.text.length)
        (ch.text ++ r.1, ⟨pos, pageNum, ch.x0, ch.x1, ch.top, ch.bottom⟩ :: r.2.1, r.2.2)

/-- The page loop (`enumerate(pdf.pages, start=1)`): each page's
characters followed by one un-indexed `"\n"`. -/
def buildPages : List (List PdfChar) → Nat → Nat → List Char × List Glyph × Nat
  | [], _, pos => ([], [], pos)
  | pg :: rest, num, pos =>
      let a := buildPage num pg pos
      let b := buildPages rest (num + 1) (a.2.2 + 1)
      (a.1 ++ '\n' :: b.1, a.2.1 ++ b.2.1, b.2.2)

/-- Python `pdf_text.find(value, search_pos)`: the least index `i ≥
start` at which `value` occurs in `s` (`none` for `-1`). -/
def strFindAux (s v : List Char) : Nat → Nat → Option Nat
  | _, 0 => none
  | i, fuel + 1 =>
      if (s.drop i).take v.length = v then some i
      else strFindAux s v (i + 1) fuel

/-- Python `s.find(v, start)`. -/
def strFind (s v : List Char) (start : Nat) : Option Nat :=
  strFindAux s v start (s.length + 1 - start)

/-- Resolve one entity against the page text: on a hit, advance the
cursor past the match, collect the glyphs inside the matched span, and
when there are any, fill the position fields from their rectangles.
Also returns the matched span when a position was assigned. -/
def resolveStep (pdfText : List Char) (charMap : List Glyph) (searchPos : Nat)
    (ent : Entity) : Entity × Nat × Option (Nat × Nat) :=
  match strFind pdfText ent.value searchPos with
  | none => (ent, searchPos, none)
  | some idx =>
      let newPos := idx + ent.value.length
      match charMap.filter (fun cm => decide (idx ≤ cm.index) && decide (cm.index < idx + ent.value.length)) with
      | [] => (ent, newPos, none)
      | c :: cs =>
          let x0v := cs.foldl (fun a g => min a g.x0) c.x0
          let x1v := cs.foldl (fun a g => max a g.x1) c.x1
          let topv := cs.foldl (fun a g => min a g.top) c.top
          let botv := cs.foldl (fun a g => max a g.bottom) c.bottom
          ({ ent with page := some c.page, x := some x0v, y := some topv,
                      width := some (x1v - x0v), height := some (botv - topv) },
           newPos, some (idx, idx + ent.value.length))

/-- The entity loop with its monotonically advancing `search_pos`. -/
def resolveAll (pdfText : List Char) (charMap : List Glyph) :
    List Entity → Nat → List (Entity × Option (Nat × Nat)) × Nat
  | [], pos => ([], pos)
  | e :: rest, pos =>
      let s := resolveStep pdfText charMap pos e
      let r := resolveAll pdfText charMap rest s.2.1
      ((s.1, s.2.2) :: r.1, r.2)

/-- Stable insertion of an entity into a start-sorted list, placing it
before the first element with a strictly larger-or-equal start. -/
def insertByStart (e : Entity) : List Entity → List Entity
  | [] => [e]
  | x :: xs => if e.start ≤ x.start then e :: x :: xs else x :: insertByStart e xs

/-- Python `sorted(entities, key=lambda e: e.start)` (stable). -/
def sortByStart (l : List Entity) : List Entity :=
  l.foldr insertByStart []

/-- The whole coordinate-resolution pass of `anonymize_pdf`: build the
page text and `char_map` from pages 1.., then resolve the entities in
increasing `start` order from cursor 0. -/
def resolveEntities (pages : List (List PdfChar)) (entities : List Entity) :
    List (Entity × Option (Nat × Nat)) :=
  let built := buildPages pages 1 0
  (resolveAll built.1 built.2.1 (sortByStart entities) 0).1

/-!
## Concrete example inputs used by the witnesses and counterexamples
-/

/-- A paragraph whose single run carries the given text. -/
def paraOf (t : List Char) : Para :=
  ⟨[⟨t, false⟩], false⟩

/-- One body paragraph with runs `"john"` and `"@x.com"`. -/
def docJohn : Document :=
  ⟨[⟨[⟨"john".toList, false⟩, ⟨"@x.com".toList, false⟩], false⟩], [], [], [], [], []⟩

/-- An e-mail entity spanning both runs of `docJohn`. -/
def entJohn : Entity :=
  ⟨"EMAIL".toList, "john@x.com".toList, 0, 10, none, none, none, none, none⟩

/-- One body paragraph with the single run `"Contact: test@example.com"`. -/
def docContact : Document :=
  ⟨[paraOf "Contact: test@example.com".toList], [], [], [], [], []⟩

/-- The e-mail entity of the spec's placeholder example, with supplied
replacement equal to the original text. -/
def entContact : Entity :=
  ⟨"EMAIL".toList, "test@example.com".toList, 9, 25, none, none, none, none, none⟩

/-- One body paragraph with runs `"ab"` and `"cd"`. -/
def docFrame : Document :=
  ⟨[⟨[⟨"ab".toList, false⟩, ⟨"cd".toList, false⟩], false⟩], [], [], [], [], []⟩

/-- An entity overlapping only the first run of `docFrame`. -/
def entFrame : Entity :=
  ⟨"T".toList, "ab".toList, 0, 2, none, none, none, none, none⟩

/-- One body paragraph with the single run `"A"` and one section with
empty header and footer. -/
def docSingleA : Document :=
  ⟨[paraOf ['A']], [], [⟨[], []⟩], [], [], []⟩

/-- Two sections whose headers and footers each hold one non-empty
run (`"H0"`, `"F0"`, `"H1"`, `"F1"`), and no body or table content. -/
def docTwoSecs : Document :=
  ⟨[], [],
    [⟨[paraOf "H0".toList], [paraOf "F0".toList]⟩,
     ⟨[paraOf "H1".toList], [paraOf "F1".toList]⟩],
    [], [], []⟩

/-- One body paragraph whose first run is empty and whose second run is
`"a"`. -/
def docEmptyRun : Document :=
  ⟨[⟨[⟨[], false⟩, ⟨['a'], false⟩], false⟩], [], [], [], [], []⟩

/-- One body paragraph with the single run `"hi"`. -/
def docRoundtrip : Document :=
  ⟨[paraOf "hi".toList], [], [], [], [], []⟩

/-- One body paragraph with the single run `"ok"`. -/
def docSliceW : Document :=
  ⟨[paraOf "ok".toList], [], [], [], [], []⟩

/-- A document with non-empty metadata used to exercise the metadata
restore. -/
def docMeta : Document :=
  ⟨[paraOf "x".toList], [], [], "au".toList, "ti".toList, "su".toList⟩

/-- One PDF page with the glyphs `a` and `b`. -/
def pagesAB : List (List PdfChar) :=
  [[⟨['a'], 0, 1, 0, 1⟩, ⟨['b'], 1, 2, 0, 1⟩]]

/-- An entity whose value `"a"` occurs on the page. -/
def entA : Entity := ⟨"T".toList, ['a'], 0, 1, none, none, none, none, none⟩

/-- An entity whose value `"b"` occurs on the page. -/
def entB : Entity := ⟨"T".toList, ['b'], 1, 2, none, none, none, none, none⟩

/-- `entA` annotated with the position the resolver assigns on `pagesAB`. -/
def entAres : Entity := ⟨"T".toList, ['a'], 0, 1, some 1, some 0, some 0, some 1, some 1⟩

/-- `entB` annotated with the position the resolver assigns on `pagesAB`. -/
def entBres : Entity := ⟨"T".toList, ['b'], 1, 2, some 1, some 1, some 0, some 1, some 1⟩

/-- A small page text in which `entMiss.value` does not occur. -/
def textABC : List Char := "abc".toList

/-- An entity whose value `"zz"` occurs nowhere in `textABC`. -/
def entMiss : Entity := ⟨"T".toList, "zz".toList, 0, 2, none, none, none, none, none⟩

/-- Modelled from the spec (§8 offset soundness, as quoted by the
claim): the reconstruction that concatenates the projection entries'
covered texts in order with one separator string between each
consecutive pair — separators belong to no unit, so an `n`-entry table
admits exactly `n - 1` separator slots. -/
def joinWithSeps : List (List Char) → List (List Char) → List Char
  | [], _ => []
  | [t], _ => t
  | t :: ts, s :: ss => t ++ s ++ joinWithSeps ts ss
  | t :: ts, [] => t ++ joinWithSeps ts []

/-!
## Projection invariants
-/

/-- The flat-text slice `text[a:b]`. -/
def slice (l : List Char) (a b : Nat) : List Char :=
  (l.drop a).take (b - a)

/-- A run piece is sound for `doc` when its recorded path resolves to a
run with exactly the recorded text and page-break flag. -/
def RS (doc : Document) (pc : Piece) : Prop :=
  ∀ p t pb sv, pc = Piece.run p t pb sv → get_run doc p = some ⟨t, pb⟩

/-- All run pieces of a traversal are sound. -/
def Sound (doc : Document) (l : List Piece) : Prop :=
  ∀ pc ∈ l, RS doc pc

/-- Invariant of the traversal state: position equals accumulated
length, entries lie inside `[0, pos)` with `start ≤ stop`, entries are
chained in production order, and every entry's slice of the accumulated
text is the text of the run its locator resolves to. -/
structure Good (doc : Document) (st : MState) : Prop where
  posLen : st.pos = st.acc.length
  bounds : ∀ m ∈ st.mapping, m.start ≤ m.stop ∧ m.stop ≤ st.pos
  ordered : st.mapping.Pairwise (fun a b => a.stop ≤ b.start)
  covers : ∀ m ∈ st.mapping, ∃ r, get_run doc m.path = some r ∧
    r.text = slice st.acc m.start m.stop

lemma slice_append (l t : List Char) (a b : Nat) (h : b ≤ l.length) :
    slice (l ++ t) a b = slice l a b := by
  unfold slice
  by_cases ha : a ≤ l.length
  · rw [List.drop_append_of_le_length ha,
      List.take_append_of_le_length (by simpa using Nat.sub_le_sub_right h a)]
  · have hba : b - a = 0 := by omega
    simp [hba]

lemma slice_whole (l t : List Char) :
    slice (l ++ t) l.length (l.length + t.length) = t := by
  unfold slice
  rw [List.drop_left, Nat.add_sub_cancel_left, List.take_length]

lemma RS_sep (doc : Document) (t : List Char) : RS doc (Piece.sep t) := by
  intro p t' pb sv h
  exact Piece.noConfusion h

lemma RS_sectInc (doc : Document) : RS doc Piece.sectInc := by
  intro p t' pb sv h
  exact Piece.noConfusion h

lemma stepPiece_good (doc : Document) (st : MState) (pc : Piece)
    (hst : Good doc st) (hpc : RS doc pc) : Good doc (stepPiece st pc) := by
  cases pc with
  | run p t pb sv =>
    have hrun : get_run doc p = some ⟨t, pb⟩ := hpc p t pb sv rfl
    constructor
    · simp [stepPiece, hst.posLen]
    · intro m hm
      rcases List.mem_append.1 hm with hm | hm
      · have := hst.bounds m hm
        simp [stepPiece]; omega
      · simp at hm
        subst hm
        simp [stepPiece]
    · refine List.pairwise_append.2 ⟨hst.ordered, by simp, ?_⟩
      intro a ha b hb
      simp at hb
      subst hb
      simpa [stepPiece] using (hst.bounds a ha).2
    · intro m hm
      rcases List.mem_append.1 hm with hm | hm
      · obtain ⟨r, hr, hrt⟩ := hst.covers m hm
        refine ⟨r, hr, ?_⟩
        rw [hrt]
        exact (slice_append st.acc t m.start m.stop
          (by rw [← hst.posLen]; exact (hst.bounds m hm).2)).symm
      · simp at hm
        subst hm
        refine ⟨⟨t, pb⟩, hrun, ?_⟩
        simp only [stepPiece]
        rw [hst.posLen, slice_whole]
  | sep t =>
    constructor
    · simp [stepPiece, hst.posLen]
    · intro m hm
      have := hst.bounds m hm
      simp [stepPiece]; omega
    · simpa [stepPiece] using hst.ordered
    · intro m hm
      obtain ⟨r, hr, hrt⟩ := hst.covers m hm
      refine ⟨r, hr, ?_⟩
      rw [hrt]
      exact (slice_append st.acc t m.start m.stop
        (by rw [← hst.posLen]; exact (hst.bounds m hm).2)).symm
  | sectInc =>
    exact ⟨hst.posLen, by simpa [stepPiece] using hst.bounds,
      by simpa [stepPiece] using hst.ordered,
      by simpa [stepPiece] using hst.covers⟩

lemma foldl_good (doc : Document) :
    ∀ (l : List Piece) (st : MState), Sound doc l → Good doc st →
      Good doc (l.foldl stepPiece st)
  | [], st, _, hst => hst
  | pc :: rest, st, hs, hst => by
    have h1 : Good doc (stepPiece st pc) :=
      stepPiece_good doc st pc hst (hs pc (by simp))
    exact foldl_good doc rest (stepPiece st pc)
      (fun q hq => hs q (by simp [hq])) h1

lemma init_good (doc : Document) : Good doc ⟨[], [], 0, 0, 0⟩ := by
  constructor <;> simp

lemma mem_if_singleton {α : Type} {c : Prop} [Decidable c] {x a : α}
    (h : a ∈ if c then [x] else []) : a = x := by
  split at h
  · simpa using h
  · simp at h

lemma mem_if_singleton' {α : Type} {c : Prop} [Decidable c] {x a : α}
    (h : a ∈ if c then [] else [x]) : a = x := by
  split at h
  · simp at h
  · simpa using h

lemma runPieces_sound (doc : Document) (mk : Nat → Path) (sv : Option Nat) :
    ∀ (runs : List Run) (i : Nat),
      (∀ j r, runs[j]? = some r → get_run doc (mk (i + j)) = some r) →
      ∀ pc ∈ runPieces mk sv runs i, RS doc pc
  | [], _, _, pc, hpc => by simp [runPieces] at hpc
  | r :: rest, i, H, pc, hpc => by
    rcases List.mem_cons.1 hpc with h | h
    · subst h
      intro p t pb sv' heq
      cases heq
      have := H 0 r (by simp)
      simpa using this
    · refine runPieces_sound doc mk sv rest (i + 1) ?_ pc h
      intro j r' hj
      have := H (j + 1) r' (by simpa using hj)
      have e : i + (j + 1) = i + 1 + j := by omega
      rwa [e] at this

lemma paraPieces_sound (doc : Document) (mk2 : Nat → Nat → Path) (sv : Option Nat)
    (useSect : Bool) (total : Nat) :
    ∀ (paras : List Para) (i : Nat),
      (∀ j pa, paras[j]? = some pa → ∀ k r, pa.runs[k]? = some r →
        get_run doc (mk2 (i + j) k) = some r) →
      ∀ pc ∈ paraPieces mk2 sv useSect total paras i, RS doc pc
  | [], _, _, pc, hpc => by simp [paraPieces] at hpc
  | pa :: rest, i, H, pc, hpc => by
    simp only [paraPieces, List.mem_append] at hpc
    rcases hpc with ((h | h) | h) | h
    · refine runPieces_sound doc (mk2 i) sv pa.runs 0 ?_ pc h
      intro j r hj
      have := H 0 pa (by simp) j r hj
      simpa using this
    · rw [mem_if_singleton h]
      exact RS_sep doc _
    · rw [mem_if_singleton h]
      exact RS_sectInc doc
    · refine paraPieces_sound doc mk2 sv useSect total rest (i + 1) ?_ pc h
      intro j pa' hj k r hk
      have := H (j + 1) pa' (by simpa using hj) k r hk
      have e : i + (j + 1) = i + 1 + j := by omega
      rwa [e] at this

lemma cellPieces_sound (doc : Document) (mkc : Nat → Nat → Nat → Path) (total : Nat) :
    ∀ (cells : List Cell) (i : Nat),
      (∀ j cl, cells[j]? = some cl → ∀ pj pa, cl.paras[pj]? = some pa →
        ∀ k r, pa.runs[k]? = some r → get_run doc (mkc (i + j) pj k) = some r) →
      ∀ pc ∈ cellPieces mkc total cells i, RS doc pc
  | [], _, _, pc, hpc => by simp [cellPieces] at hpc
  | cl :: rest, i, H, pc, hpc => by
    simp only [cellPieces, List.mem_append] at hpc
    rcases hpc with (h | h) | h
    · refine paraPieces_sound doc (mkc i) none false cl.paras.length cl.paras 0 ?_ pc h
      intro j pa hj k r hk
      have := H 0 cl (by simp) j pa hj k r hk
      simpa using this
    · rw [mem_if_singleton h]
      exact RS_sep doc _
    · refine cellPieces_sound doc mkc total rest (i + 1) ?_ pc h
      intro j cl' hj pj pa hp k r hk
      have := H (j + 1) cl' (by simpa using hj) pj pa hp k r hk
      have e : i + (j + 1) = i + 1 + j := by omega
      rwa [e] at this

lemma rowPieces_sound (doc : Document) (mkr : Nat → Nat → Nat → Nat → Path) (total : Nat) :
    ∀ (rows : List Row) (i : Nat),
      (∀ j rw, rows[j]? = some rw → ∀ cj cl, rw.cells[cj]? = some cl →
        ∀ pj pa, cl.paras[pj]? = some pa → ∀ k r, pa.runs[k]? = some r →
          get_run doc (mkr (i + j) cj pj k) = some r) →
      ∀ pc ∈ rowPieces mkr total rows i, RS doc pc
  | [], _, _, pc, hpc => by simp [rowPieces] at hpc
  | rw :: rest, i, H, pc, hpc => by
    simp only [rowPieces, List.mem_append] at hpc
    rcases hpc with (h | h) | h
    · refine cellPieces_sound doc (mkr i) rw.cells.length rw.cells 0 ?_ pc h
      intro j cl hj pj pa hp k r hk
      have := H 0 rw (by simp) j cl hj pj pa hp k r hk
      simpa using this
    · rw [mem_if_singleton h]
      exact RS_sep doc _
    · refine rowPieces_sound doc mkr total rest (i + 1) ?_ pc h
      intro j rw' hj cj cl hc pj pa hp k r hk
      have := H (j + 1) rw' (by simpa using hj) cj cl hc pj pa hp k r hk
      have e : i + (j + 1) = i + 1 + j := by omega
      rwa [e] at this

lemma tablesPieces_sound (doc : Document) (total : Nat) :
    ∀ (tbs : List Table) (i : Nat),
      (∀ j tb, tbs[j]? = some tb → ∀ rj rw, tb.rows[rj]? = some rw →
        ∀ cj cl, rw.cells[cj]? = some cl → ∀ pj pa, cl.paras[pj]? = some pa →
        ∀ k r, pa.runs[k]? = some r →
          get_run doc (Path.table (i + j) rj cj pj k) = some r) →
      ∀ pc ∈ tablesPieces total tbs i, RS doc pc
  | [], _, _, pc, hpc => by simp [tablesPieces] at hpc
  | tb :: rest, i, H, pc, hpc => by
    simp only [tablesPieces, List.mem_append] at hpc
    rcases hpc with (h | h) | h
    · refine rowPieces_sound doc (fun rw c p r => Path.table i rw c p r)
        tb.rows.length tb.rows 0 ?_ pc h
      intro j rw hj cj cl hc pj pa hp k r hk
      have := H 0 tb (by simp) j rw hj cj cl hc pj pa hp k r hk
      simpa using this
    · rw [mem_if_singleton h]
      exact RS_sep doc _
    · refine tablesPieces_sound doc total rest (i + 1) ?_ pc h
      intro j tb' hj rj rw hr cj cl hc pj pa hp k r hk
      have := H (j + 1) tb' (by simpa using hj) rj rw hr cj cl hc pj pa hp k r hk
      have e : i + (j + 1) = i + 1 + j := by omega
      rwa [e] at this

lemma headersPieces_sound (doc : Document) :
    ∀ (secs : List Sec) (i : Nat),
      (∀ j sc, secs[j]? = some sc → ∀ pj pa, sc.headerParas[pj]? = some pa →
        ∀ k r, pa.runs[k]? = some r → get_run doc (Path.header (i + j) pj k) = some r) →
      ∀ pc ∈ headersPieces secs i, RS doc pc
  | [], _, _, pc, hpc => by simp [headersPieces] at hpc
  | sc :: rest, i, H, pc, hpc => by
    simp only [headersPieces, List.mem_append] at hpc
    rcases hpc with (h | h) | h
    · refine paraPieces_sound doc (fun p r => Path.header i p r) (some i) false
        sc.headerParas.length sc.headerParas 0 ?_ pc h
      intro j pa hj k r hk
      have := H 0 sc (by simp) j pa hj k r hk
      simpa using this
    · rw [mem_if_singleton' h]
      exact RS_sep doc _
    · refine headersPieces_sound doc rest (i + 1) ?_ pc h
      intro j sc' hj pj pa hp k r hk
      have := H (j + 1) sc' (by simpa using hj) pj pa hp k r hk
      have e : i + (j + 1) = i + 1 + j := by omega
      rwa [e] at this

lemma footersPieces_sound (doc : Document) :
    ∀ (secs : List Sec) (i : Nat),
      (∀ j sc, secs[j]? = some sc → ∀ pj pa, sc.footerParas[pj]? = some pa →
        ∀ k r, pa.runs[k]? = some r → get_run doc (Path.footer (i + j) pj k) = some r) →
      ∀ pc ∈ footersPieces secs i, RS doc pc
  | [], _, _, pc, hpc => by simp [footersPieces] at hpc
  | sc :: rest, i, H, pc, hpc => by
    simp only [footersPieces, List.mem_append] at hpc
    rcases hpc with (h | h) | h
    · refine paraPieces_sound doc (fun p r => Path.footer i p r) (some i) false
        sc.footerParas.length sc.footerParas 0 ?_ pc h
      intro j pa hj k r hk
      have := H 0 sc (by simp) j pa hj k r hk
      simpa using this
    · rw [mem_if_singleton' h]
      exact RS_sep doc _
    · refine footersPieces_sound doc rest (i + 1) ?_ pc h
      intro j sc' hj pj pa hp k r hk
      have := H (j + 1) sc' (by simpa using hj) pj pa hp k r hk
      have e : i + (j + 1) = i + 1 + j := by omega
      rwa [e] at this

lemma docPieces_sound (doc : Document) : Sound doc (docPieces doc) := by
  intro pc hpc
  simp only [docPieces, List.mem_append] at hpc
  rcases hpc with (((h | h) | h) | h) | h
  · refine paraPieces_sound doc (fun p r => Path.body p r) none true
      doc.paragraphs.length doc.paragraphs 0 ?_ pc h
    intro j pa hj k r hk
    simp [get_run, hj, hk]
  · rcases (by split at h <;> simp_all :
      pc = Piece.sep ['\n']) with rfl
    exact RS_sep doc _
  · refine tablesPieces_sound doc doc.tables.length doc.tables 0 ?_ pc h
    intro j tb hj rj rw hr cj cl hc pj pa hp k r hk
    simp [get_run, hj, hr, hc, hp, hk]
  · refine headersPieces_sound doc doc.sections 0 ?_ pc h
    intro j sc hj pj pa hp k r hk
    simp [get_run, hj, hp, hk]
  · refine footersPieces_sound doc doc.sections 0 ?_ pc h
    intro j sc hj pj pa hp k r hk
    simp [get_run, hj, hp, hk]

/-- The final traversal state of `docx_text_mapping` satisfies the
projection invariant. -/
lemma docx_final_good (doc : Document) :
    Good doc ((docPieces doc).foldl stepPiece ⟨[], [], 0, 0, 0⟩) :=
  foldl_good doc (docPieces doc) ⟨[], [], 0, 0, 0⟩ (docPieces_sound doc) (init_good doc)

lemma docx_text_mapping_fst (doc : Document) :
    (docx_text_mapping doc).1 = ((docPieces doc).foldl stepPiece ⟨[], [], 0, 0, 0⟩).acc := rfl

lemma docx_text_mapping_snd (doc : Document) :
    (docx_text_mapping doc).2 = ((docPieces doc).foldl stepPiece ⟨[], [], 0, 0, 0⟩).mapping := rfl

lemma setRunText_meta (doc : Document) (p : Path) (t : List Char) :
    (setRunText doc p t).author = doc.author ∧
    (setRunText doc p t).title = doc.title ∧
    (setRunText doc p t).subject = doc.subject := by
  cases p <;> (simp only [setRunText]; repeat' split) <;> simp

lemma get_run_set_eq (doc : Document) (p : Path) (t : List Char) (r : Run)
    (h : get_run doc p = some r) :
    get_run (setRunText doc p t) p = some { r with text := t } := by
  cases p with
  | body pi ri =>
    simp only [get_run] at h
    rcases Option.bind_eq_some.1 h with ⟨pa, h1, h2⟩
    have hpi : pi < doc.paragraphs.length := (List.getElem?_eq_some.1 h1).1
    have hri : ri < pa.runs.length := (List.getElem?_eq_some.1 h2).1
    simp only [setRunText, h1, h2, get_run]
    rw [List.getElem?_set_self hpi]
    simp only [Option.some_bind]
    rw [List.getElem?_set_self hri]
  | table ti ri ci pi rri =>
    simp only [get_run] at h
    rcases Option.bind_eq_some.1 h with ⟨tb, h1, h⟩
    rcases Option.bind_eq_some.1 h with ⟨rw, h2, h⟩
    rcases Option.bind_eq_some.1 h with ⟨cl, h3, h⟩
    rcases Option.bind_eq_some.1 h with ⟨pa, h4, h5⟩
    have hti : ti < doc.tables.length := (List.getElem?_eq_some.1 h1).1
    have hri : ri < tb.rows.length := (List.getElem?_eq_some.1 h2).1
    have hci : ci < rw.cells.length := (List.getElem?_eq_some.1 h3).1
    have hpi : pi < cl.paras.length := (List.getElem?_eq_some.1 h4).1
    have hrri : rri < pa.runs.length := (List.getElem?_eq_some.1 h5).1
    simp only [setRunText, h1, h2, h3, h4, h5, get_run]
    rw [List.getElem?_set_self hti]
    simp only [Option.some_bind]
    rw [List.getElem?_set_self hri]
    simp only [Option.some_bind]
    rw [List.getElem?_set_self hci]
    simp only [Option.some_bind]
    rw [List.getElem?_set_self hpi]
    simp only [Option.some_bind]
    rw [List.getElem?_set_self hrri]
  | header si pi ri =>
    simp only [get_run] at h
    rcases Option.bind_eq_some.1 h with ⟨sc, h1, h⟩
    rcases Option.bind_eq_some.1 h with ⟨pa, h2, h3⟩
    have hsi : si < doc.sections.length := (List.getElem?_eq_some.1 h1).1
    have hpi : pi < sc.headerParas.length := (List.getElem?_eq_some.1 h2).1
    have hri : ri < pa.runs.length := (List.getElem?_eq_some.1 h3).1
    simp only [setRunText, h1, h2, h3, get_run]
    rw [List.getElem?_set_self hsi]
    simp only [Option.some_bind]
    rw [List.getElem?_set_self hpi]
    simp only [Option.some_bind]
    rw [List.getElem?_set_self hri]
  | footer si pi ri =>
    simp only [get_run] at h
    rcases Option.bind_eq_some.1 h with ⟨sc, h1, h⟩
    rcases Option.bind_eq_some.1 h with ⟨pa, h2, h3⟩
    have hsi : si < doc.sections.length := (List.getElem?_eq_some.1 h1).1
    have hpi : pi < sc.footerParas.length := (List.getElem?_eq_some.1 h2).1
    have hri : ri < pa.runs.length := (List.getElem?_eq_some.1 h3).1
    simp only [setRunText, h1, h2, h3, get_run]
    rw [List.getElem?_set_self hsi]
    simp only [Option.some_bind]
    rw [List.getElem?_set_self hpi]
    simp only [Option.some_bind]
    rw [List.getElem?_set_self hri]

lemma get_run_set_ne (doc : Document) (p : Path) (t : List Char) (q : Path)
    (h : p ≠ q) : get_run (setRunText doc p t) q = get_run doc q := by
  cases p with
  | body pi ri =>
    cases q with
    | body pj rj =>
      simp only [setRunText]
      split
      · rfl
      rename_i pa h1
      split
      · rfl
      rename_i r h2
      have hpi : pi < doc.paragraphs.length := (List.getElem?_eq_some.1 h1).1
      simp only [get_run]
      by_cases hij : pi = pj
      · subst hij
        have hne : ri ≠ rj := fun hri => h (by rw [hri])
        rw [List.getElem?_set_self hpi, h1]
        simp only [Option.some_bind]
        rw [List.getElem?_set_ne hne]
      · rw [List.getElem?_set_ne hij]
    | table a1 a2 a3 a4 a5 => simp only [setRunText]; (repeat' split) <;> rfl
    | header a1 a2 a3 => simp only [setRunText]; (repeat' split) <;> rfl
    | footer a1 a2 a3 => simp only [setRunText]; (repeat' split) <;> rfl
  | table ti ri ci pi rri =>
    cases q with
    | body a1 a2 => simp only [setRunText]; (repeat' split) <;> rfl
    | header a1 a2 a3 => simp only [setRunText]; (repeat' split) <;> rfl
    | footer a1 a2 a3 => simp only [setRunText]; (repeat' split) <;> rfl
    | table tj rj cj pj rrj =>
      simp only [setRunText]
      split
      · rfl
      rename_i tb h1
      split
      · rfl
      rename_i rw h2
      split
      · rfl
      rename_i cl h3
      split
      · rfl
      rename_i pa h4
      split
      · rfl
      rename_i r h5
      have hti : ti < doc.tables.length := (List.getElem?_eq_some.1 h1).1
      have hri : ri < tb.rows.length := (List.getElem?_eq_some.1 h2).1
      have hci : ci < rw.cells.length := (List.getElem?_eq_some.1 h3).1
      have hpi : pi < cl.paras.length := (List.getElem?_eq_some.1 h4).1
      simp only [get_run]
      by_cases e1 : ti = tj
      · subst e1
        rw [List.getElem?_set_self hti, h1]
        simp only [Option.some_bind]
        by_cases e2 : ri = rj
        · subst e2
          rw [List.getElem?_set_self hri, h2]
          simp only [Option.some_bind]
          by_cases e3 : ci = cj
          · subst e3
            rw [List.getElem?_set_self hci, h3]
            simp only [Option.some_bind]
            by_cases e4 : pi = pj
            · subst e4
              rw [List.getElem?_set_self hpi, h4]
              simp only [Option.some_bind]
              have hne : rri ≠ rrj := fun e5 => h (by rw [e5])
              rw [List.getElem?_set_ne hne]
            · rw [List.getElem?_set_ne e4]
          · rw [List.getElem?_set_ne e3]
        · rw [List.getElem?_set_ne e2]
      · rw [List.getElem?_set_ne e1]
  | header si pi ri =>
    cases q with
    | body a1 a2 => simp only [setRunText]; (repeat' split) <;> rfl
    | table a1 a2 a3 a4 a5 => simp only [setRunText]; (repeat' split) <;> rfl
    | header sj pj rj =>
      simp only [setRunText]
      split
      · rfl
      rename_i sc h1
      split
      · rfl
      rename_i pa h2
      split
      · rfl
      rename_i r h3
      have hsi : si < doc.sections.length := (List.getElem?_eq_some.1 h1).1
      have hpi : pi < sc.headerParas.length := (List.getElem?_eq_some.1 h2).1
      simp only [get_run]
      by_cases e1 : si = sj
      · subst e1
        rw [List.getElem?_set_self hsi, h1]
        simp only [Option.some_bind]
        by_cases e2 : pi = pj
        · subst e2
          rw [List.getElem?_set_self hpi, h2]
          simp only [Option.some_bind]
          have hne : ri ≠ rj := fun e3 => h (by rw [e3])
          rw [List.getElem?_set_ne hne]
        · rw [List.getElem?_set_ne e2]
      · rw [List.getElem?_set_ne e1]
    | footer sj pj rj =>
      simp only [setRunText]
      split
      · rfl
      rename_i sc h1
      split
      · rfl
      rename_i pa h2
      split
      · rfl
      rename_i r h3
      have hsi : si < doc.sections.length := (List.getElem?_eq_some.1 h1).1
      simp only [get_run]
      by_cases e1 : si = sj
      · subst e1
        rw [List.getElem?_set_self hsi, h1]
        rfl
      · rw [List.getElem?_set_ne e1]
  | footer si pi ri =>
    cases q with
    | body a1 a2 => simp only [setRunText]; (repeat' split) <;> rfl
    | table a1 a2 a3 a4 a5 => simp only [setRunText]; (repeat' split) <;> rfl
    | header sj pj rj =>
      simp only [setRunText]
      split
      · rfl
      rename_i sc h1
      split
      · rfl
      rename_i pa h2
      split
      · rfl
      rename_i r h3
      have hsi : si < doc.sections.length := (List.getElem?_eq_some.1 h1).1
      simp only [get_run]
      by_cases e1 : si = sj
      · subst e1
        rw [List.getElem?_set_self hsi, h1]
        rfl
      · rw [List.getElem?_set_ne e1]
    | footer sj pj rj =>
      simp only [setRunText]
      split
      · rfl
      rename_i sc h1
      split
      · rfl
      rename_i pa h2
      split
      · rfl
      rename_i r h3
      have hsi : si < doc.sections.length := (List.getElem?_eq_some.1 h1).1
      have hpi : pi < sc.footerParas.length := (List.getElem?_eq_some.1 h2).1
      simp only [get_run]
      by_cases e1 : si = sj
      · subst e1
        rw [List.getElem?_set_self hsi, h1]
        simp only [Option.some_bind]
        by_cases e2 : pi = pj
        · subst e2
          rw [List.getElem?_set_self hpi, h2]
          simp only [Option.some_bind]
          have hne : ri ≠ rj := fun e3 => h (by rw [e3])
          rw [List.getElem?_set_ne hne]
        · rw [List.getElem?_set_ne e2]
      · rw [List.getElem?_set_ne e1]

lemma ovB_iff (ent : Entity) (m : RunInfo) : ovB ent m = true ↔ ¬ noOverlap ent m := by
  simp [ovB]

/-- Runs whose path differs from every overlapping entry's path are
untouched by the per-entity loop. -/
lemma applyEnt_frame (ent : Entity) (repl : List Char) :
    ∀ (ms : List RunInfo) (doc : Document) (first : Bool) (q : Path),
      (∀ m ∈ ms, ¬ noOverlap ent m → m.path ≠ q) →
      get_run (applyEnt ent repl doc ms first) q = get_run doc q
  | [], _, _, _, _ => rfl
  | m :: rest, doc, first, q, H => by
    have Hrest : ∀ doc', ∀ first',
        get_run (applyEnt ent repl doc' rest first') q = get_run doc' q :=
      fun doc' first' => applyEnt_frame ent repl rest doc' first' q
        (fun m' hm' => H m' (by simp [hm']))
    simp only [applyEnt]
    split
    · exact Hrest doc first
    rename_i hnov
    split
    · exact Hrest doc first
    rename_i run hrun
    have hne : m.path ≠ q := H m (by simp) hnov
    split
    · rw [Hrest _ false]
      exact get_run_set_ne doc m.path _ q hne
    · rw [Hrest _ false]
      exact get_run_set_ne doc m.path _ q hne

/-- The first overlapping entry of the mapping, when resolvable and with
a path distinct from all later overlapping entries, receives
`prefix ++ replacement ++ suffix`. -/
lemma applyEnt_first (ent : Entity) (repl : List Char) :
    ∀ (ms : List RunInfo) (doc : Document) (m1 : RunInfo) (rest1 : List RunInfo),
      ms.filter (fun m => ovB ent m) = m1 :: rest1 →
      (∀ m' ∈ rest1, m'.path ≠ m1.path) →
      ∀ r1, get_run doc m1.path = some r1 →
      get_run (applyEnt ent repl doc ms true) m1.path =
        some { r1 with text :=
                 r1.text.take (locS ent m1) ++ repl ++ r1.text.drop (locE ent m1) }
  | [], _, _, _, hf, _, _, _ => by simp at hf
  | m :: rest, doc, m1, rest1, hf, hdist, r1, hres => by
    by_cases hnov : noOverlap ent m
    · have hfilter : (m :: rest).filter (fun m => ovB ent m) =
          rest.filter (fun m => ovB ent m) :=
        List.filter_cons_of_neg (by simp [ovB_iff, hnov])
      rw [hfilter] at hf
      simp only [applyEnt, if_pos hnov]
      exact applyEnt_first ent repl rest doc m1 rest1 hf hdist r1 hres
    · have hfilter : (m :: rest).filter (fun m => ovB ent m) =
          m :: rest.filter (fun m => ovB ent m) :=
        List.filter_cons_of_pos (by simp [ovB_iff, hnov])
      rw [hfilter] at hf
      obtain ⟨he, hr⟩ : m = m1 ∧ rest.filter (fun m => ovB ent m) = rest1 := by
        constructor <;> [exact (List.cons.injEq _ _ _ _ ▸ hf).1;
          exact (List.cons.injEq _ _ _ _ ▸ hf).2]
      subst he
      simp only [applyEnt, if_neg hnov, hres, if_true]
      rw [applyEnt_frame ent repl rest _ false m.path ?side]
      case side =>
        intro m' hm' hov'
        exact hdist m' (hr ▸ List.mem_filter.2 ⟨hm', (ovB_iff ent m').2 hov'⟩)
      exact get_run_set_eq doc m.path _ r1 hres

/-- With the `first` flag already consumed, every overlapping
resolvable entry (under pairwise-distinct overlapping paths) receives
`prefix ++ suffix`. -/
lemma applyEnt_false (ent : Entity) (repl : List Char) :
    ∀ (ms : List RunInfo) (doc : Document) (mk : RunInfo) (rk : Run),
      mk ∈ ms.filter (fun m => ovB ent m) →
      (ms.filter (fun m => ovB ent m)).Pairwise (fun a b => a.path ≠ b.path) →
      get_run doc mk.path = some rk →
      get_run (applyEnt ent repl doc ms false) mk.path =
        some { rk with text :=
                 rk.text.take (locS ent mk) ++ rk.text.drop (locE ent mk) }
  | [], _, _, _, hmem, _, _ => by simp at hmem
  | m :: rest, doc, mk, rk, hmem, hpw, hres => by
    by_cases hnov : noOverlap ent m
    · have hfilter : (m :: rest).filter (fun m => ovB ent m) =
          rest.filter (fun m => ovB ent m) :=
        List.filter_cons_of_neg (by simp [ovB_iff, hnov])
      rw [hfilter] at hmem hpw
      simp only [applyEnt, if_pos hnov]
      exact applyEnt_false ent repl rest doc mk rk hmem hpw hres
    · have hfilter : (m :: rest).filter (fun m => ovB ent m) =
          m :: rest.filter (fun m => ovB ent m) :=
        List.filter_cons_of_pos (by simp [ovB_iff, hnov])
      rw [hfilter] at hmem hpw
      have hpw' := List.pairwise_cons.1 hpw
      rcases List.mem_cons.1 hmem with he | hm
      · subst he
        simp only [applyEnt, if_neg hnov, hres, if_neg Bool.false_ne_true]
        rw [applyEnt_frame ent repl rest _ false mk.path ?side]
        case side =>
          intro m' hm' hov'
          exact (hpw'.1 m' (List.mem_filter.2 ⟨hm', (ovB_iff ent m').2 hov'⟩)).symm
        exact get_run_set_eq doc mk.path _ rk hres
      · have hne : mk.path ≠ m.path :=
          fun e => (hpw'.1 mk hm) e.symm
        simp only [applyEnt, if_neg hnov]
        cases hrm : get_run doc m.path with
        | none =>
          exact applyEnt_false ent repl rest doc mk rk hm hpw'.2 hres
        | some run =>
          refine applyEnt_false ent repl rest _ mk rk hm hpw'.2 ?_
          rw [get_run_set_ne doc m.path _ mk.path (fun e => hne e.symm)]
          exact hres

/-- A later overlapping entry, behind a resolvable first entry, receives
the deletion splice even when processing starts with `first = true`. -/
lemma applyEnt_rest (ent : Entity) (repl : List Char) :
    ∀ (ms : List RunInfo) (doc : Document) (m1 : RunInfo) (rest1 : List RunInfo)
      (mk : RunInfo) (rk : Run),
      ms.filter (fun m => ovB ent m) = m1 :: rest1 →
      ((m1 :: rest1).Pairwise (fun a b => a.path ≠ b.path)) →
      (get_run doc m1.path).isSome →
      mk ∈ rest1 →
      get_run doc mk.path = some rk →
      get_run (applyEnt ent repl doc ms true) mk.path =
        some { rk with text :=
                 rk.text.take (locS ent mk) ++ rk.text.drop (locE ent mk) }
  | [], _, _, _, _, _, hf, _, _, _, _ => by simp at hf
  | m :: rest, doc, m1, rest1, mk, rk, hf, hpw, hres1, hmk, hres => by
    by_cases hnov : noOverlap ent m
    · have hfilter : (m :: rest).filter (fun m => ovB ent m) =
          rest.filter (fun m => ovB ent m) :=
        List.filter_cons_of_neg (by simp [ovB_iff, hnov])
      rw [hfilter] at hf
      simp only [applyEnt, if_pos hnov]
      exact applyEnt_rest ent repl rest doc m1 rest1 mk rk hf hpw hres1 hmk hres
    · have hfilter : (m :: rest).filter (fun m => ovB ent m) =
          m :: rest.filter (fun m => ovB ent m) :=
        List.filter_cons_of_pos (by simp [ovB_iff, hnov])
      rw [hfilter] at hf
      obtain ⟨he, hr⟩ : m = m1 ∧ rest.filter (fun m => ovB ent m) = rest1 := by
        constructor <;> [exact (List.cons.injEq _ _ _ _ ▸ hf).1;
          exact (List.cons.injEq _ _ _ _ ▸ hf).2]
      subst he
      obtain ⟨r1, hr1⟩ := Option.isSome_iff_exists.1 hres1
      have hpw' := List.pairwise_cons.1 hpw
      have hnep : mk.path ≠ m.path := fun e => (hpw'.1 mk hmk) e.symm
      simp only [applyEnt, if_neg hnov, hr1, if_true]
      refine applyEnt_false ent repl rest _ mk rk (hr ▸ hmk) (hr ▸ hpw'.2) ?_
      rw [get_run_set_ne doc m.path _ mk.path (fun e => hnep e.symm)]
      exact hres

lemma applyEnt_meta (ent : Entity) (repl : List Char) :
    ∀ (ms : List RunInfo) (doc : Document) (first : Bool),
      (applyEnt ent repl doc ms first).author = doc.author ∧
      (applyEnt ent repl doc ms first).title = doc.title ∧
      (applyEnt ent repl doc ms first).subject = doc.subject
  | [], _, _ => ⟨rfl, rfl, rfl⟩
  | m :: rest, doc, first => by
    simp only [applyEnt]
    split
    · exact applyEnt_meta ent repl rest doc first
    split
    · exact applyEnt_meta ent repl rest doc first
    rename_i run hrun
    split
    · have h1 := applyEnt_meta ent repl rest
        (setRunText doc m.path (run.text.take (locS ent m) ++ repl ++ run.text.drop (locE ent m))) false
      have h2 := setRunText_meta doc m.path
        (run.text.take (locS ent m) ++ repl ++ run.text.drop (locE ent m))
      exact ⟨h1.1.trans h2.1, h1.2.1.trans h2.2.1, h1.2.2.trans h2.2.2⟩
    · have h1 := applyEnt_meta ent repl rest
        (setRunText doc m.path (run.text.take (locS ent m) ++ run.text.drop (locE ent m))) false
      have h2 := setRunText_meta doc m.path
        (run.text.take (locS ent m) ++ run.text.drop (locE ent m))
      exact ⟨h1.1.trans h2.1, h1.2.1.trans h2.2.1, h1.2.2.trans h2.2.2⟩

lemma replace_meta (mapping : List RunInfo) :
    ∀ (entities : List Entity) (doc : Document),
      (_replace_using_mapping doc entities mapping).author = doc.author ∧
      (_replace_using_mapping doc entities mapping).title = doc.title ∧
      (_replace_using_mapping doc entities mapping).subject = doc.subject
  | [], _ => ⟨rfl, rfl, rfl⟩
  | e :: rest, doc => by
    have h1 := replace_meta mapping rest (replaceEntity doc mapping e)
    have h2 := applyEnt_meta e
      (if e.value = _original_text doc mapping e then placeholder e else e.value)
      mapping doc true
    simp only [_replace_using_mapping, List.foldl_cons] at h1 ⊢
    exact ⟨h1.1.trans h2.1, h1.2.1.trans h2.2.1, h1.2.2.trans h2.2.2⟩

/-- Per-entity frame: runs at paths that no overlapping entry of the
mapping points to are untouched by the whole multi-entity rewrite. -/
lemma replace_frame (mapping : List RunInfo) :
    ∀ (entities : List Entity) (doc : Document) (q : Path),
      (∀ m ∈ mapping, m.path = q → ∀ e ∈ entities, noOverlap e m) →
      get_run (_replace_using_mapping doc entities mapping) q = get_run doc q
  | [], _, _, _ => rfl
  | e :: rest, doc, q, H => by
    simp only [_replace_using_mapping, List.foldl_cons]
    have h1 : get_run (replaceEntity doc mapping e) q = get_run doc q := by
      unfold replaceEntity
      exact applyEnt_frame e _ mapping doc true q
        (fun m hm hov he => hov (H m hm he e (by simp)))
    have h2 := replace_frame mapping rest (replaceEntity doc mapping e) q
      (fun m hm hq e' he' => H m hm hq e' (by simp [he']))
    simpa only [_replace_using_mapping] using h2.trans h1

/-!
## Coordinate-resolver lemmas
-/

lemma strFindAux_ge (s v : List Char) :
    ∀ (fuel i idx : Nat), strFindAux s v i fuel = some idx → i ≤ idx
  | 0, _, _, h => by simp [strFindAux] at h
  | fuel + 1, i, idx, h => by
    simp only [strFindAux] at h
    split at h
    · cases h
      exact Nat.le_refl _
    · exact Nat.le_of_succ_le (strFindAux_ge s v fuel (i + 1) idx h)

lemma strFind_ge (s v : List Char) (start idx : Nat)
    (h : strFind s v start = some idx) : start ≤ idx :=
  strFindAux_ge s v _ start idx h

lemma resolveStep_pos (t : List Char) (cm : List Glyph) (pos : Nat) (e : Entity) :
    pos ≤ (resolveStep t cm pos e).2.1 := by
  unfold resolveStep
  cases h : strFind t e.value pos with
  | none => simp
  | some idx =>
    have := strFind_ge t e.value pos idx h
    simp only
    split <;> simp <;> omega

lemma resolveStep_range (t : List Char) (cm : List Glyph) (pos : Nat) (e : Entity)
    (a b : Nat) (h : (resolveStep t cm pos e).2.2 = some (a, b)) :
    pos ≤ a ∧ b = (resolveStep t cm pos e).2.1 := by
  unfold resolveStep at h ⊢
  cases hf : strFind t e.value pos with
  | none => simp [hf] at h
  | some idx =>
    have hge := strFind_ge t e.value pos idx hf
    simp only [hf] at h ⊢
    split at h
    · simp at h
    · rename_i c cs heq
      simp only [heq]
      simp at h
      obtain ⟨ha, hb⟩ := h
      subst ha; subst hb
      exact ⟨hge, rfl⟩

lemma resolveAll_lb (t : List Char) (cm : List Glyph) :
    ∀ (ents : List Entity) (pos : Nat),
      (∀ x ∈ (resolveAll t cm ents pos).1, ∀ a b, x.2 = some (a, b) → pos ≤ a) ∧
      pos ≤ (resolveAll t cm ents pos).2
  | [], pos => by simp [resolveAll]
  | e :: rest, pos => by
    have hstep := resolveStep_pos t cm pos e
    have ih := resolveAll_lb t cm rest (resolveStep t cm pos e).2.1
    simp only [resolveAll]
    constructor
    · intro x hx a b hab
      rcases List.mem_cons.1 hx with hx | hx
      · subst hx
        exact (resolveStep_range t cm pos e a b hab).1
      · exact le_trans hstep (ih.1 x hx a b hab)
    · exact le_trans hstep ih.2

lemma resolveAll_pairwise (t : List Char) (cm : List Glyph) :
    ∀ (ents : List Entity) (pos : Nat),
      ((resolveAll t cm ents pos).1).Pairwise
        (fun x y => ∀ a b c d, x.2 = some (a, b) → y.2 = some (c, d) → b ≤ c)
  | [], pos => by simp [resolveAll]
  | e :: rest, pos => by
    simp only [resolveAll]
    refine List.pairwise_cons.2 ⟨?_, resolveAll_pairwise t cm rest _⟩
    intro y hy a b c d hab hcd
    have hb := (resolveStep_range t cm pos e a b hab).2
    have hc := (resolveAll_lb t cm rest (resolveStep t cm pos e).2.1).1 y hy c d hcd
    omega

/-!
## Mapping decomposition along the traversal phases
-/

lemma foldl_mapping_mono :
    ∀ (l : List Piece) (st : MState), ∃ Δ,
      (l.foldl stepPiece st).mapping = st.mapping ++ Δ ∧
      ∀ m ∈ Δ, ∃ t pb sv, Piece.run m.path t pb sv ∈ l
  | [], st => ⟨[], by simp⟩
  | pc :: rest, st => by
    obtain ⟨Δ, hΔ, hmem⟩ := foldl_mapping_mono rest (stepPiece st pc)
    cases pc with
    | run p t pb sv =>
      refine ⟨⟨st.pos, st.pos + t.length, st.page, sv.getD st.sect, p⟩ :: Δ, ?_, ?_⟩
      · simpa [stepPiece] using hΔ
      · intro m hm
        rcases List.mem_cons.1 hm with hm | hm
        · subst hm
          exact ⟨t, pb, sv, by simp⟩
        · obtain ⟨t', pb', sv', h⟩ := hmem m hm
          exact ⟨t', pb', sv', by simp [h]⟩
    | sep t =>
      refine ⟨Δ, by simpa [stepPiece] using hΔ, ?_⟩
      intro m hm
      obtain ⟨t', pb', sv', h⟩ := hmem m hm
      exact ⟨t', pb', sv', by simp [h]⟩
    | sectInc =>
      refine ⟨Δ, by simpa [stepPiece] using hΔ, ?_⟩
      intro m hm
      obtain ⟨t', pb', sv', h⟩ := hmem m hm
      exact ⟨t', pb', sv', by simp [h]⟩

lemma runPieces_kind (mk : Nat → Path) (sv : Option Nat) :
    ∀ (runs : List Run) (i : Nat) (p : Path) (t : List Char) (pb : Bool) (sv' : Option Nat),
      Piece.run p t pb sv' ∈ runPieces mk sv runs i → ∃ j, p = mk j
  | [], _, _, _, _, _, h => by simp [runPieces] at h
  | r :: rest, i, p, t, pb, sv', h => by
    rcases List.mem_cons.1 h with h | h
    · injection h with h1 h2 h3 h4
      exact ⟨i, h1⟩
    · exact runPieces_kind mk sv rest (i + 1) p t pb sv' h

lemma paraPieces_kind (mk2 : Nat → Nat → Path) (sv : Option Nat) (useSect : Bool) (total : Nat) :
    ∀ (paras : List Para) (i : Nat) (p : Path) (t : List Char) (pb : Bool) (sv' : Option Nat),
      Piece.run p t pb sv' ∈ paraPieces mk2 sv useSect total paras i → ∃ a b, p = mk2 a b
  | [], _, _, _, _, _, h => by simp [paraPieces] at h
  | pa :: rest, i, p, t, pb, sv', h => by
    simp only [paraPieces, List.mem_append] at h
    rcases h with ((h | h) | h) | h
    · obtain ⟨j, hj⟩ := runPieces_kind (mk2 i) sv pa.runs 0 p t pb sv' h
      exact ⟨i, j, hj⟩
    · exact Piece.noConfusion (mem_if_singleton h)
    · exact Piece.noConfusion (mem_if_singleton h)
    · exact paraPieces_kind mk2 sv useSect total rest (i + 1) p t pb sv' h

lemma cellPieces_kind (mkc : Nat → Nat → Nat → Path) (total : Nat) :
    ∀ (cells : List Cell) (i : Nat) (p : Path) (t : List Char) (pb : Bool) (sv' : Option Nat),
      Piece.run p t pb sv' ∈ cellPieces mkc total cells i → ∃ a b c, p = mkc a b c
  | [], _, _, _, _, _, h => by simp [cellPieces] at h
  | cl :: rest, i, p, t, pb, sv', h => by
    simp only [cellPieces, List.mem_append] at h
    rcases h with (h | h) | h
    · obtain ⟨a, b, hab⟩ := paraPieces_kind (mkc i) none false cl.paras.length cl.paras 0 p t pb sv' h
      exact ⟨i, a, b, hab⟩
    · exact Piece.noConfusion (mem_if_singleton h)
    · exact cellPieces_kind mkc total rest (i + 1) p t pb sv' h

lemma rowPieces_kind (mkr : Nat → Nat → Nat → Nat → Path) (total : Nat) :
    ∀ (rows : List Row) (i : Nat) (p : Path) (t : List Char) (pb : Bool) (sv' : Option Nat),
      Piece.run p t pb sv' ∈ rowPieces mkr total rows i → ∃ a b c d, p = mkr a b c d
  | [], _, _, _, _, _, h => by simp [rowPieces] at h
  | rw :: rest, i, p, t, pb, sv', h => by
    simp only [rowPieces, List.mem_append] at h
    rcases h with (h | h) | h
    · obtain ⟨a, b, c, habc⟩ := cellPieces_kind (mkr i) rw.cells.length rw.cells 0 p t pb sv' h
      exact ⟨i, a, b, c, habc⟩
    · exact Piece.noConfusion (mem_if_singleton h)
    · exact rowPieces_kind mkr total rest (i + 1) p t pb sv' h

lemma tablesPieces_kind (total : Nat) :
    ∀ (tbs : List Table) (i : Nat) (p : Path) (t : List Char) (pb : Bool) (sv' : Option Nat),
      Piece.run p t pb sv' ∈ tablesPieces total tbs i → ∃ a b c d e, p = Path.table a b c d e
  | [], _, _, _, _, _, h => by simp [tablesPieces] at h
  | tb :: rest, i, p, t, pb, sv', h => by
    simp only [tablesPieces, List.mem_append] at h
    rcases h with (h | h) | h
    · obtain ⟨a, b, c, d, habcd⟩ := rowPieces_kind (fun rw c p r => Path.table i rw c p r)
        tb.rows.length tb.rows 0 p t pb sv' h
      exact ⟨i, a, b, c, d, habcd⟩
    · exact Piece.noConfusion (mem_if_singleton h)
    · exact tablesPieces_kind total rest (i + 1) p t pb sv' h

lemma headersPieces_kind :
    ∀ (secs : List Sec) (i : Nat) (p : Path) (t : List Char) (pb : Bool) (sv' : Option Nat),
      Piece.run p t pb sv' ∈ headersPieces secs i → ∃ a b c, p = Path.header a b c
  | [], _, _, _, _, _, h => by simp [headersPieces] at h
  | sc :: rest, i, p, t, pb, sv', h => by
    simp only [headersPieces, List.mem_append] at h
    rcases h with (h | h) | h
    · obtain ⟨a, b, hab⟩ := paraPieces_kind (fun p r => Path.header i p r) (some i) false
        sc.headerParas.length sc.headerParas 0 p t pb sv' h
      exact ⟨i, a, b, hab⟩
    · exact Piece.noConfusion (mem_if_singleton' h)
    · exact headersPieces_kind rest (i + 1) p t pb sv' h

lemma footersPieces_kind :
    ∀ (secs : List Sec) (i : Nat) (p : Path) (t : List Char) (pb : Bool) (sv' : Option Nat),
      Piece.run p t pb sv' ∈ footersPieces secs i → ∃ a b c, p = Path.footer a b c
  | [], _, _, _, _, _, h => by simp [footersPieces] at h
  | sc :: rest, i, p, t, pb, sv', h => by
    simp only [footersPieces, List.mem_append] at h
    rcases h with (h | h) | h
    · obtain ⟨a, b, hab⟩ := paraPieces_kind (fun p r => Path.footer i p r) (some i) false
        sc.footerParas.length sc.footerParas 0 p t pb sv' h
      exact ⟨i, a, b, hab⟩
    · exact Piece.noConfusion (mem_if_singleton' h)
    · exact footersPieces_kind rest (i + 1) p t pb sv' h

/-- The projection table splits into the entries produced before the
footer loop (none of which carries a footer path) followed by the
entries of the footer loop (all of which do). -/
lemma docx_mapping_split (doc : Document) :
    ∃ Δhead Δfoot,
      (docx_text_mapping doc).2 = Δhead ++ Δfoot ∧
      (∀ m ∈ Δhead, ∀ a b c, m.path ≠ Path.footer a b c) ∧
      (∀ m ∈ Δfoot, ∃ a b c, m.path = Path.footer a b c) := by
  have epieces : docPieces doc =
      (paraPieces (fun p r => Path.body p r) none true doc.paragraphs.length doc.paragraphs 0
        ++ ((if doc.paragraphs.isEmpty then [] else [Piece.sep ['\n']])
        ++ (tablesPieces doc.tables.length doc.tables 0
        ++ headersPieces doc.sections 0)))
      ++ footersPieces doc.sections 0 := by
    simp only [docPieces, List.append_assoc]
  obtain ⟨ΔX, hX, hmX⟩ := foldl_mapping_mono
      (paraPieces (fun p r => Path.body p r) none true doc.paragraphs.length doc.paragraphs 0
        ++ ((if doc.paragraphs.isEmpty then [] else [Piece.sep ['\n']])
        ++ (tablesPieces doc.tables.length doc.tables 0
        ++ headersPieces doc.sections 0)))
      ⟨[], [], 0, 0, 0⟩
  obtain ⟨Δ4, h4, hm4⟩ := foldl_mapping_mono (footersPieces doc.sections 0)
      ((paraPieces (fun p r => Path.body p r) none true doc.paragraphs.length doc.paragraphs 0
        ++ ((if doc.paragraphs.isEmpty then [] else [Piece.sep ['\n']])
        ++ (tablesPieces doc.tables.length doc.tables 0
        ++ headersPieces doc.sections 0))).foldl stepPiece ⟨[], [], 0, 0, 0⟩)
  refine ⟨((paraPieces (fun p r => Path.body p r) none true doc.paragraphs.length doc.paragraphs 0
        ++ ((if doc.paragraphs.isEmpty then [] else [Piece.sep ['\n']])
        ++ (tablesPieces doc.tables.length doc.tables 0
        ++ headersPieces doc.sections 0))).foldl stepPiece ⟨[], [], 0, 0, 0⟩).mapping,
      Δ4, ?_, ?_, ?_⟩
  · rw [docx_text_mapping_snd, epieces, List.foldl_append, h4]
  · intro m hm a b c hpath
    rw [hX] at hm
    simp only [List.nil_append] at hm
    obtain ⟨t, pb, sv, hrun⟩ := hmX m hm
    rcases List.mem_append.1 hrun with h | h
    · obtain ⟨x, y, hxy⟩ := paraPieces_kind (fun p r => Path.body p r) none true
        doc.paragraphs.length doc.paragraphs 0 m.path t pb sv h
      rw [hpath] at hxy
      exact Path.noConfusion hxy
    rcases List.mem_append.1 h with h | h
    · split at h
      · simp at h
      · simp at h
    rcases List.mem_append.1 h with h | h
    · obtain ⟨x1, x2, x3, x4, x5, hxs⟩ := tablesPieces_kind doc.tables.length doc.tables 0
        m.path t pb sv h
      rw [hpath] at hxs
      exact Path.noConfusion hxs
    · obtain ⟨x, y, z, hxyz⟩ := headersPieces_kind doc.sections 0 m.path t pb sv h
      rw [hpath] at hxyz
      exact Path.noConfusion hxyz
  · intro m hm
    obtain ⟨t, pb, sv, hrun⟩ := hm4 m hm
    exact footersPieces_kind doc.sections 0 m.path t pb sv hrun

/-!
## Claim theorems
-/

/-- C1: for an entity whose interval overlaps at least one projection
entry, with all overlapping entries resolvable and carrying pairwise
distinct paths, the rewrite splices the effective replacement exactly
once — into the first overlapping run, between that run's local text
before the overlap and after it — and for every subsequent overlapping
run it deletes the overlapped local sub-range, inserting nothing. -/
theorem C1_single_insertion (doc : Document) (mapping : List RunInfo) (ent : Entity)
    (m1 : RunInfo) (rest1 : List RunInfo)
    (hfil : mapping.filter (fun m => ovB ent m) = m1 :: rest1)
    (hdist : (m1 :: rest1).Pairwise (fun a b => a.path ≠ b.path))
    (_hres : ∀ m ∈ m1 :: rest1, (get_run doc m.path).isSome) :
    ∀ r1, get_run doc m1.path = some r1 →
      (get_run (_replace_using_mapping doc [ent] mapping) m1.path =
        some { r1 with text := r1.text.take (locS ent m1)
          ++ (if ent.value = _original_text doc mapping ent then placeholder ent else ent.value)
          ++ r1.text.drop (locE ent m1) }) ∧
      ∀ mk ∈ rest1, ∀ rk, get_run doc mk.path = some rk →
        get_run (_replace_using_mapping doc [ent] mapping) mk.path =
          some { rk with text := rk.text.take (locS ent mk) ++ rk.text.drop (locE ent mk) } := by
  intro r1 hr1
  have hrepl : _replace_using_mapping doc [ent] mapping =
      applyEnt ent
        (if ent.value = _original_text doc mapping ent then placeholder ent else ent.value)
        doc mapping true := rfl
  constructor
  · rw [hrepl]
    exact applyEnt_first ent _ mapping doc m1 rest1 hfil
      (fun m' hm' => ((List.pairwise_cons.1 hdist).1 m' hm').symm) r1 hr1
  · intro mk hmk rk hrk
    rw [hrepl]
    exact applyEnt_rest ent _ mapping doc m1 rest1 mk rk hfil hdist
      (hr1 ▸ rfl) hmk hrk

/-- C1 witness: the spec's split-value example, `"john"` + `"@x.com"`
with an entity spanning both runs — the first run becomes the full
(placeholder) replacement and the second becomes the empty string. -/
theorem C1_single_insertion_witness :
    get_run (_replace_using_mapping docJohn [entJohn] (docx_text_mapping docJohn).2)
        (Path.body 0 0) = some ⟨"[EMAIL]".toList, false⟩ ∧
    get_run (_replace_using_mapping docJohn [entJohn] (docx_text_mapping docJohn).2)
        (Path.body 0 1) = some ⟨[], false⟩ := by
  have h := C1_single_insertion docJohn (docx_text_mapping docJohn).2 entJohn
    ⟨0, 4, 0, 0, Path.body 0 0⟩ [⟨4, 10, 0, 0, Path.body 0 1⟩]
    (by decide) (by decide) (by decide)
    ⟨"john".toList, false⟩ (by decide)
  have h2 := h.2 ⟨4, 10, 0, 0, Path.body 0 1⟩ (by decide) ⟨"@x.com".toList, false⟩ (by decide)
  refine ⟨?_, ?_⟩
  · rw [h.1]; decide
  · rw [h2]; decide

/-- C3: when the supplied replacement equals the reconstructed original
text, the placeholder `[<type>]` is spliced into the first overlapping
run instead, so the run's final text carries the placeholder and not
the original value. -/
theorem C3_placeholder_fallback (doc : Document) (mapping : List RunInfo) (ent : Entity)
    (m1 : RunInfo) (rest1 : List RunInfo)
    (hfil : mapping.filter (fun m => ovB ent m) = m1 :: rest1)
    (hdist : ∀ m' ∈ rest1, m'.path ≠ m1.path)
    (heq : ent.value = _original_text doc mapping ent)
    (r1 : Run) (hr1 : get_run doc m1.path = some r1) :
    get_run (_replace_using_mapping doc [ent] mapping) m1.path =
      some { r1 with text := r1.text.take (locS ent m1)
        ++ placeholder ent ++ r1.text.drop (locE ent m1) } := by
  have hrepl : _replace_using_mapping doc [ent] mapping =
      applyEnt ent
        (if ent.value = _original_text doc mapping ent then placeholder ent else ent.value)
        doc mapping true := rfl
  rw [hrepl, if_pos heq]
  exact applyEnt_first ent (placeholder ent) mapping doc m1 rest1 hfil hdist r1 hr1

/-- C3 witness: the spec's example `"Contact: test@example.com"` with a
replacement equal to the original — the run becomes
`"Contact: [EMAIL]"`. -/
theorem C3_placeholder_fallback_witness :
    get_run (_replace_using_mapping docContact [entContact] (docx_text_mapping docContact).2)
        (Path.body 0 0) = some ⟨"Contact: [EMAIL]".toList, false⟩ := by
  have h := C3_placeholder_fallback docContact (docx_text_mapping docContact).2 entContact
    ⟨0, 25, 0, 0, Path.body 0 0⟩ [] (by decide) (by decide) (by decide)
    ⟨"Contact: test@example.com".toList, false⟩ (by decide)
  rw [h]; decide

/-- C10: a run is mutated only when some projection entry with its path
overlaps some entity; a path all of whose entries overlap no entity
resolves to the same run before and after the whole rewrite. -/
theorem C10_untouched_runs (doc : Document) (entities : List Entity)
    (mapping : List RunInfo) (q : Path)
    (H : ∀ m ∈ mapping, m.path = q → ∀ e ∈ entities, noOverlap e m) :
    get_run (_replace_using_mapping doc entities mapping) q = get_run doc q :=
  replace_frame mapping entities doc q H

/-- C10 witness: in `docFrame`, an entity covering only the first run
leaves the second run (`"cd"`) untouched. -/
theorem C10_untouched_runs_witness :
    get_run (_replace_using_mapping docFrame [entFrame] (docx_text_mapping docFrame).2)
        (Path.body 0 1) = get_run docFrame (Path.body 0 1) :=
  C10_untouched_runs docFrame [entFrame] (docx_text_mapping docFrame).2
    (Path.body 0 1) (by decide)

/-- C7: `anonymize_docx` returns a document whose author, title and
subject equal the input document's, for every detector result. -/
theorem C7_metadata_preserved (detectF : List Char → List Entity) (doc : Document) :
    (anonymize_docx detectF doc).1.author = doc.author ∧
    (anonymize_docx detectF doc).1.title = doc.title ∧
    (anonymize_docx detectF doc).1.subject = doc.subject := by
  have hmeta := replace_meta (docx_text_mapping doc).2
    (detectF (docx_text_mapping doc).1) doc
  unfold anonymize_docx
  obtain ⟨ha, ht, hs⟩ := hmeta
  refine ⟨?_, ?_, ?_⟩ <;>
    · dsimp only
      split_ifs <;> simp [ha, ht, hs]

/-- C7 witness: the metadata of `docMeta` survives an anonymization
that rewrites its only run. -/
theorem C7_metadata_preserved_witness :
    (anonymize_docx (fun _ => [⟨"T".toList, "x".toList, 0, 1, none, none, none, none, none⟩])
        docMeta).1.author = docMeta.author :=
  (C7_metadata_preserved
    (fun _ => [⟨"T".toList, "x".toList, 0, 1, none, none, none, none, none⟩]) docMeta).1

/-- C6: every projection entry's locator resolves against the unmutated
document to a run whose text is exactly the entry's covered slice of
the flat text. -/
theorem C6_locator_roundtrip (doc : Document) (m : RunInfo)
    (hm : m ∈ (docx_text_mapping doc).2) :
    ∃ r, get_run doc m.path = some r ∧
      r.text = slice (docx_text_mapping doc).1 m.start m.stop := by
  have hg := docx_final_good doc
  rw [docx_text_mapping_snd] at hm
  rw [docx_text_mapping_fst]
  exact hg.covers m hm

/-- C6 witness: the single entry of `docRoundtrip` resolves to the run
`"hi"`, which covers `flat[0:2]`. -/
theorem C6_locator_roundtrip_witness :
    (⟨0, 2, 0, 0, Path.body 0 0⟩ : RunInfo) ∈ (docx_text_mapping docRoundtrip).2 ∧
    ∃ r, get_run docRoundtrip (Path.body 0 0) = some r ∧
      r.text = slice (docx_text_mapping docRoundtrip).1 0 2 :=
  ⟨by decide, C6_locator_roundtrip docRoundtrip ⟨0, 2, 0, 0, Path.body 0 0⟩ (by decide)⟩

/-- C2 counterexample: for the document `docSingleA` the flat text is
`"A\n"` — with a trailing separator after the body block — while the
only projection entry covers `"A"`, so no assignment of between-entry
separators reconstructs the flat text: a 1-entry table admits no
separator slot, and `joinWithSeps [["A"]] seps = "A"` for every
`seps`. -/
theorem C2_offsets_counterexample :
    (docx_text_mapping docSingleA).2.map
        (fun m => slice (docx_text_mapping docSingleA).1 m.start m.stop) = [['A']] ∧
    joinWithSeps [['A']] [] = ['A'] ∧
    (docx_text_mapping docSingleA).1 = ['A', '\n'] ∧
    joinWithSeps [['A']] [] ≠ (docx_text_mapping docSingleA).1 := by
  refine ⟨by decide, by decide, by decide, by decide⟩

/-- C2 amended: each projection entry's covered slice of the flat text
equals the text its unit contributed, i.e. the text of the run its
locator resolves to; the flat text additionally contains separator
characters that belong to no unit (including a trailing newline after
a non-empty body block), so entry texts alone need not concatenate to
the whole flat text. -/
theorem C2_entry_slice (doc : Document) (m : RunInfo)
    (hm : m ∈ (docx_text_mapping doc).2) :
    slice (docx_text_mapping doc).1 m.start m.stop =
      ((get_run doc m.path).map Run.text).getD [] := by
  have hg := docx_final_good doc
  rw [docx_text_mapping_snd] at hm
  rw [docx_text_mapping_fst]
  obtain ⟨r, hr, hrt⟩ := hg.covers m hm
  rw [hr]
  exact hrt.symm

/-- C2 witness: the slice of the single entry of `docSliceW` is the run
text `"ok"`. -/
theorem C2_entry_slice_witness :
    (⟨0, 2, 0, 0, Path.body 0 0⟩ : RunInfo) ∈ (docx_text_mapping docSliceW).2 ∧
    slice (docx_text_mapping docSliceW).1 0 2 =
      ((get_run docSliceW (Path.body 0 0)).map Run.text).getD [] :=
  ⟨by decide, C2_entry_slice docSliceW ⟨0, 2, 0, 0, Path.body 0 0⟩ (by decide)⟩

/-- C5 counterexample: in `docEmptyRun` an empty first run contributes
a zero-length entry at position 0 and the following run's entry also
starts at 0, so consecutive entry starts are not strictly increasing. -/
theorem C5_strict_counterexample :
    ¬ List.Chain' (fun a b : RunInfo => a.start < b.start)
        (docx_text_mapping docEmptyRun).2 := by
  intro h
  have e : (docx_text_mapping docEmptyRun).2 =
      [⟨0, 0, 0, 0, Path.body 0 0⟩, ⟨0, 1, 0, 0, Path.body 0 1⟩] := by decide
  rw [e] at h
  exact absurd (List.chain'_cons.1 h).1 (by decide)

/-- C5 amended: consecutive projection entries satisfy
`m1.end ≤ m2.start` (hence starts are non-decreasing, not strictly
increasing: zero-length entries of empty runs share their start with
the following entry), and every entry satisfies `start ≤ end`. -/
theorem C5_monotone_mapping (doc : Document) :
    List.Chain' (fun a b : RunInfo => a.stop ≤ b.start) (docx_text_mapping doc).2 ∧
    ∀ m ∈ (docx_text_mapping doc).2, m.start ≤ m.stop := by
  have hg := docx_final_good doc
  rw [docx_text_mapping_snd]
  exact ⟨hg.ordered.chain', fun m hm => (hg.bounds m hm).1⟩

/-- C5 witness: the chained ordering on `docEmptyRun`'s two entries. -/
theorem C5_monotone_mapping_witness :
    List.Chain' (fun a b : RunInfo => a.stop ≤ b.start)
      (docx_text_mapping docEmptyRun).2 :=
  (C5_monotone_mapping docEmptyRun).1

/-- C4 counterexample: on `docTwoSecs` — two sections, all headers and
footers non-empty — section 0's footer entry does not precede section
1's header entry: the traversal emits all headers first, then all
footers, so the footer-0 entry starts at 6 while the header-1 entry
starts at 3. -/
theorem C4_order_counterexample :
    ¬ (∀ mf ∈ (docx_text_mapping docTwoSecs).2,
        ∀ mh ∈ (docx_text_mapping docTwoSecs).2,
          mf.path = Path.footer 0 0 0 → mh.path = Path.header 1 0 0 →
            mf.start < mh.start) := by
  decide

/-- C4 amended: the projector visits body paragraphs, then tables, then
every section's header (in section order), and only then every
section's footer, so every header entry — of any section — precedes
every footer entry — of any section — in flat-text offsets; in
particular section 1's header precedes section 0's footer, contrary to
per-section header/footer interleaving. -/
theorem C4_headers_precede_footers (doc : Document) (mh mf : RunInfo)
    (hmh : mh ∈ (docx_text_mapping doc).2) (hmf : mf ∈ (docx_text_mapping doc).2)
    (sh ph rh : Nat) (hh : mh.path = Path.header sh ph rh)
    (sf pf rf : Nat) (hf : mf.path = Path.footer sf pf rf) :
    mh.stop ≤ mf.start := by
  obtain ⟨Δh, Δf, heq, hnof, hfoot⟩ := docx_mapping_split doc
  have hord : ((docx_text_mapping doc).2).Pairwise (fun a b => a.stop ≤ b.start) := by
    rw [docx_text_mapping_snd]
    exact (docx_final_good doc).ordered
  rw [heq] at hord hmh hmf
  have hmh' : mh ∈ Δh := by
    rcases List.mem_append.1 hmh with h | h
    · exact h
    · obtain ⟨a, b, c, habc⟩ := hfoot mh h
      rw [hh] at habc
      exact Path.noConfusion habc
  have hmf' : mf ∈ Δf := by
    rcases List.mem_append.1 hmf with h | h
    · exact absurd hf (hnof mf h sf pf rf)
    · exact h
  exact (List.pairwise_append.1 hord).2.2 mh hmh' mf hmf'

/-- C4 witness: in `docTwoSecs`, the header-1 entry `[3,5)` precedes
the footer-0 entry `[6,8)`. -/
theorem C4_headers_precede_footers_witness :
    (⟨3, 5, 0, 1, Path.header 1 0 0⟩ : RunInfo) ∈ (docx_text_mapping docTwoSecs).2 ∧
    (⟨6, 8, 0, 0, Path.footer 0 0 0⟩ : RunInfo) ∈ (docx_text_mapping docTwoSecs).2 ∧
    (5 : Nat) ≤ 6 :=
  ⟨by decide, by decide,
    C4_headers_precede_footers docTwoSecs ⟨3, 5, 0, 1, Path.header 1 0 0⟩
      ⟨6, 8, 0, 0, Path.footer 0 0 0⟩ (by decide) (by decide) 1 0 0 rfl 0 0 0 rfl⟩

/-- C8: any two entities the coordinate resolver assigns a position
have disjoint matched flat-index ranges: the earlier's end is at most
the later's start, because the cursor advances past each match. -/
theorem C8_disjoint_ranges (pages : List (List PdfChar)) (entities : List Entity)
    (i j : Nat) (hij : i < j) (ei ej : Entity) (a b c d : Nat)
    (hi : (resolveEntities pages entities)[i]? = some (ei, some (a, b)))
    (hj : (resolveEntities pages entities)[j]? = some (ej, some (c, d))) :
    b ≤ c ∧ ¬ (a < d ∧ c < b) := by
  have hpw := resolveAll_pairwise (buildPages pages 1 0).1 (buildPages pages 1 0).2.1
    (sortByStart entities) 0
  have he : resolveEntities pages entities =
      (resolveAll (buildPages pages 1 0).1 (buildPages pages 1 0).2.1
        (sortByStart entities) 0).1 := rfl
  rw [he] at hi hj
  obtain ⟨hilt, hival⟩ := List.getElem?_eq_some.1 hi
  obtain ⟨hjlt, hjval⟩ := List.getElem?_eq_some.1 hj
  have hrel := (List.pairwise_iff_getElem.1 hpw) i j hilt hjlt hij
  have hbc : b ≤ c := hrel a b c d (by rw [hival]) (by rw [hjval])
  exact ⟨hbc, fun hcontra => by omega⟩

/-- C8 witness: on `pagesAB`, entities `"a"` and `"b"` are resolved at
the disjoint ranges `[0,1)` and `[1,2)`. -/
theorem C8_disjoint_ranges_witness :
    (resolveEntities pagesAB [entA, entB])[0]? = some (entAres, some (0, 1)) ∧
    (resolveEntities pagesAB [entA, entB])[1]? = some (entBres, some (1, 2)) ∧
    ((1 : Nat) ≤ 1 ∧ ¬ ((0 : Nat) < 2 ∧ (1 : Nat) < 1)) :=
  ⟨by decide, by decide,
    C8_disjoint_ranges pagesAB [entA, entB] 0 1 (by decide) entAres entBres
      0 1 1 2 (by decide) (by decide)⟩

/-- C9: an entity whose value is not found at or after the cursor is
returned with all position fields unchanged and no matched range, the
cursor does not advance, and the remaining entities are processed from
the same cursor. -/
theorem C9_unmatched_nonfatal (t : List Char) (cm : List Glyph) (ent : Entity)
    (rest : List Entity) (pos : Nat)
    (h : strFind t ent.value pos = none) :
    resolveAll t cm (ent :: rest) pos =
      ((ent, none) :: (resolveAll t cm rest pos).1, (resolveAll t cm rest pos).2) := by
  simp [resolveAll, resolveStep, h]

/-- C9 witness: `"zz"` does not occur in `"abc"`, so the entity is
passed through untouched with the cursor still at 0. -/
theorem C9_unmatched_nonfatal_witness :
    strFind textABC entMiss.value 0 = none ∧
    resolveAll textABC [] [entMiss] 0 =
      ((entMiss, none) :: (resolveAll textABC [] ([] : List Entity) 0).1,
        (resolveAll textABC [] ([] : List Entity) 0).2) :=
  ⟨by decide, C9_unmatched_nonfatal textABC [] entMiss [] 0 (by decide)⟩

end Anonymizer
